import Mathlib

/-!
Verification of the clicra pipeline (src/clicra/clicra.py).

Python strings are modeled as `List Char`; `str.find`, slicing `s[:m]`,
`str.splitlines` (with its full set of line-boundary characters) and
`"\n".join` are given executable Lean counterparts.  Fallible or possibly
fall-through Python code returns `Option`.
-/

set_option autoImplicit false

namespace Clicra

/-! ### Python string primitives -/

/-- Index of the first occurrence of `c` in `l`, if any (`str.find` core). -/
def listFindIdx (c : Char) : List Char → Option Nat
  | [] => none
  | x :: xs => if x = c then some 0 else (listFindIdx c xs).map (· + 1)

/-- Python `s.find(c, start)`: first index `≥ start` holding `c`, else `-1`. -/
def pyFind (s : List Char) (c : Char) (start : Nat) : Int :=
  match listFindIdx c (s.drop start) with
  | some j => ((start + j : Nat) : Int)
  | none => -1

/-- Python slice `s[:m]` (negative `m` counts from the end, clamped at 0). -/
def pySliceTo (s : List Char) (m : Int) : List Char :=
  if m < 0 then s.take (s.length - (-m).toNat) else s.take m.toNat

theorem listFindIdx_lt_length {c : Char} : ∀ {l : List Char} {j : Nat},
    listFindIdx c l = some j → j < l.length := by
  intro l
  induction l with
  | nil => intro j h; simp [listFindIdx] at h
  | cons x xs ih =>
    intro j h
    simp only [listFindIdx] at h
    split at h
    · cases h; simp
    · cases hx : listFindIdx c xs with
      | none => rw [hx] at h; simp at h
      | some j0 =>
        rw [hx] at h
        simp only [Option.map_some'] at h
        cases h
        have := ih hx
        simp only [List.length_cons]
        omega

theorem listFindIdx_none_iff {c : Char} : ∀ {l : List Char},
    listFindIdx c l = none ↔ c ∉ l := by
  intro l
  induction l with
  | nil => simp [listFindIdx]
  | cons x xs ih =>
    simp only [listFindIdx, List.mem_cons]
    constructor
    · intro h
      split at h
      · simp at h
      · intro hc
        rcases hc with hc | hc
        · rename_i hx; exact hx hc.symm
        · rcases Option.map_eq_none'.mp h with h0
          exact (ih.mp h0) hc
    · intro h
      have hx : ¬ x = c := fun he => h (Or.inl he.symm)
      rw [if_neg hx]
      have : c ∉ xs := fun hc => h (Or.inr hc)
      rw [ih.mpr this]
      rfl

theorem listFindIdx_take {c : Char} : ∀ {l : List Char} {j : Nat},
    listFindIdx c l = some j → c ∉ l.take j := by
  intro l
  induction l with
  | nil => intro j h; simp [listFindIdx] at h
  | cons x xs ih =>
    intro j h
    simp only [listFindIdx] at h
    split at h
    · cases h; simp
    · cases hx : listFindIdx c xs with
      | none => rw [hx] at h; simp at h
      | some j0 =>
        rw [hx] at h
        simp only [Option.map_some'] at h
        cases h
        simp only [List.take_succ_cons, List.mem_cons, not_or]
        exact ⟨fun he => (by rename_i hne; exact hne he.symm), ih hx⟩

theorem listFindIdx_decomp {c : Char} : ∀ {l : List Char} {j : Nat},
    listFindIdx c l = some j → l = l.take j ++ c :: l.drop (j + 1) := by
  intro l
  induction l with
  | nil => intro j h; simp [listFindIdx] at h
  | cons x xs ih =>
    intro j h
    simp only [listFindIdx] at h
    split at h
    · cases h
      rename_i hx
      simp [hx]
    · cases hx : listFindIdx c xs with
      | none => rw [hx] at h; simp at h
      | some j0 =>
        rw [hx] at h
        simp only [Option.map_some'] at h
        cases h
        have := ih hx
        simpa using this

theorem pyFind_eq_none {s : List Char} {c : Char} {start : Nat}
    (hx : listFindIdx c (s.drop start) = none) : pyFind s c start = -1 := by
  unfold pyFind; rw [hx]

theorem pyFind_eq_some {s : List Char} {c : Char} {start j : Nat}
    (hx : listFindIdx c (s.drop start) = some j) :
    pyFind s c start = ((start + j : Nat) : Int) := by
  unfold pyFind; rw [hx]

/-- When `pyFind` succeeds, the found index lies in `[start, s.length)`. -/
theorem pyFind_bounds (s : List Char) (c : Char) (start : Nat)
    (h : 0 ≤ pyFind s c start) :
    start ≤ (pyFind s c start).toNat ∧ (pyFind s c start).toNat < s.length := by
  cases hx : listFindIdx c (s.drop start) with
  | none =>
    rw [pyFind_eq_none hx] at h
    omega
  | some j =>
    have hj := listFindIdx_lt_length hx
    rw [List.length_drop] at hj
    rw [pyFind_eq_some hx]
    omega

theorem pyFind_neg_iff (s : List Char) (c : Char) (start : Nat) :
    pyFind s c start < 0 ↔ c ∉ s.drop start := by
  cases hx : listFindIdx c (s.drop start) with
  | none =>
    rw [pyFind_eq_none hx]
    constructor
    · intro _; exact listFindIdx_none_iff.mp hx
    · intro _; omega
  | some j =>
    rw [pyFind_eq_some hx]
    constructor
    · intro h; omega
    · intro h
      rw [listFindIdx_none_iff.mpr h] at hx
      cases hx

theorem pySliceTo_all (s : List Char) (m : Int) (h : (s.length : Int) ≤ m) :
    pySliceTo s m = s := by
  unfold pySliceTo
  have h0 : ¬ m < 0 := by omega
  rw [if_neg h0]
  apply List.take_of_length_le
  omega

/-! ### clip_text (clicra.py lines 49–63)

The Python `while` loop is `clipLoop`; the implicit `return None` when the
loop would be exited is the `none` branch (we later prove it is unreachable).
`next_newline_pos` is inlined as `pyFind text '\n' (newline_pos.toNat + 1)`.
-/

def snip_str : List Char := " ...(snip)... ".data

def clipLoop (text : List Char) (max_chars : Int) (newline_pos : Int) :
    Option (List Char) :=
  if 0 ≤ newline_pos then
    if pyFind text '\n' (newline_pos.toNat + 1) < 0 ∨
        pyFind text '\n' (newline_pos.toNat + 1) > max_chars then
      some (pySliceTo text (newline_pos + 1) ++ snip_str ++ ['\n'])
    else
      clipLoop text max_chars (pyFind text '\n' (newline_pos.toNat + 1))
  else
    none
termination_by text.length - newline_pos.toNat
decreasing_by
  rename_i h1
  rw [not_or, not_lt] at h1
  have h2 := pyFind_bounds text '\n' (newline_pos.toNat + 1) h1.1
  omega

def clip_text (text : List Char) (max_chars : Int) : Option (List Char) :=
  if text.length = 0 then some []
  else if pyFind text '\n' 0 < 0 ∨ pyFind text '\n' 0 > max_chars then
    some (pySliceTo text max_chars ++ snip_str ++ ['\n'])
  else
    clipLoop text max_chars (pyFind text '\n' 0)

theorem getLast_mem_drop {l : List Char} {k : Nat} {x : Char}
    (hk : k < l.length) (hx : l.getLast? = some x) : x ∈ l.drop k := by
  have hne : l.drop k ≠ [] := by
    intro he
    have hlen := congrArg List.length he
    rw [List.length_drop] at hlen
    simp only [List.length_nil] at hlen
    omega
  have h1 : l.getLast? = (l.drop k).getLast? := by
    conv_lhs => rw [← List.take_append_drop k l]
    exact List.getLast?_append_of_ne_nil _ hne
  rw [h1] at hx
  rcases List.mem_getLast?_eq_getLast hx with ⟨h2, h3⟩
  rw [h3]
  exact List.getLast_mem h2

theorem clipLoop_snip (text : List Char) (m : Int) :
    ∀ k (np : Int), 0 ≤ np → text.length - np.toNat = k →
      ∃ s, clipLoop text m np = some (s ++ snip_str ++ ['\n']) := by
  intro k
  induction k using Nat.strong_induction_on with
  | _ k ih =>
    intro np h0 hk
    rw [clipLoop, if_pos h0]
    split
    · exact ⟨_, rfl⟩
    · rename_i h1
      rw [not_or, not_lt] at h1
      have h2 := pyFind_bounds text '\n' (np.toNat + 1) h1.1
      exact ih (text.length - (pyFind text '\n' (np.toNat + 1)).toNat)
        (by omega) _ h1.1 rfl

theorem clipLoop_last_nl (text : List Char) (m : Int)
    (hm : (text.length : Int) ≤ m) (hlast : text.getLast? = some '\n') :
    ∀ k (np : Int), 0 ≤ np → np.toNat < text.length → text.length - np.toNat = k →
      clipLoop text m np = some (text ++ snip_str ++ ['\n']) := by
  intro k
  induction k using Nat.strong_induction_on with
  | _ k ih =>
    intro np h0 hlt hk
    rw [clipLoop, if_pos h0]
    split
    · rename_i h1
      rcases h1 with h1 | h1
      · have hnot := (pyFind_neg_iff text '\n' (np.toNat + 1)).mp h1
        by_cases hcase : np.toNat + 1 < text.length
        · exact absurd (getLast_mem_drop hcase hlast) hnot
        · have hlen : np.toNat + 1 = text.length := by omega
          have hs : pySliceTo text (np + 1) = text := by
            apply pySliceTo_all
            omega
          rw [hs]
      · exfalso
        have hge : 0 ≤ pyFind text '\n' (np.toNat + 1) := by
          by_contra hneg
          push_neg at hneg
          have : (0 : Int) ≤ (text.length : Int) := by positivity
          omega
        have h2 := pyFind_bounds text '\n' (np.toNat + 1) hge
        omega
    · rename_i h1
      rw [not_or, not_lt] at h1
      have h2 := pyFind_bounds text '\n' (np.toNat + 1) h1.1
      exact ih (text.length - (pyFind text '\n' (np.toNat + 1)).toNat)
        (by omega) _ h1.1 (by omega) rfl

/-- C6: `clip_text` is total — for every string input and every `max_chars`
value it terminates and produces a string result; the implicit fall-through
(`none`) of the Python function is never reached. -/
theorem clip_text_total (text : List Char) (max_chars : Int) :
    (clip_text text max_chars).isSome = true := by
  unfold clip_text
  split
  · rfl
  · split
    · rfl
    · rename_i h1
      rw [not_or, not_lt] at h1
      obtain ⟨s, hs⟩ := clipLoop_snip text max_chars _ _ h1.1 rfl
      rw [hs]
      rfl

/-- C9: for every nonempty input and every `max_chars`, the result of
`clip_text` ends with the snip marker `" ...(snip)... "` followed by a
newline — the marker is appended unconditionally. -/
theorem clip_text_always_snip (text : List Char) (max_chars : Int)
    (h : text ≠ []) :
    ∃ s, clip_text text max_chars = some (s ++ snip_str ++ ['\n']) := by
  unfold clip_text
  rw [if_neg (by simpa using h)]
  split
  · exact ⟨_, rfl⟩
  · rename_i h1
    rw [not_or, not_lt] at h1
    exact clipLoop_snip text max_chars _ _ h1.1 rfl

theorem clip_text_always_snip_witness :
    "a".data ≠ [] ∧
      ∃ s, clip_text "a".data 5 = some (s ++ snip_str ++ ['\n']) :=
  ⟨by decide, clip_text_always_snip "a".data 5 (by decide)⟩

/-- C1 (amended): for every nonempty text whose length is at most `max_chars`
and which either contains no newline or ends with a newline, `clip_text`
returns the input text with the snip marker and a trailing newline appended —
the snip marker is present even though the text fits. -/
theorem clip_text_fits_appends_snip (text : List Char) (max_chars : Int)
    (hne : text ≠ []) (hlen : (text.length : Int) ≤ max_chars)
    (hnl : '\n' ∉ text ∨ text.getLast? = some '\n') :
    clip_text text max_chars = some (text ++ snip_str ++ ['\n']) := by
  unfold clip_text
  rw [if_neg (by simpa using hne)]
  rcases hnl with hnl | hnl
  · have hfind : pyFind text '\n' 0 = -1 :=
      pyFind_eq_none (listFindIdx_none_iff.mpr (by simpa using hnl))
    rw [if_pos (by rw [hfind]; left; omega)]
    rw [pySliceTo_all text max_chars hlen]
  · have hpos : 0 < text.length := List.length_pos.mpr hne
    have hmem : '\n' ∈ text := by
      have := getLast_mem_drop (k := 0) hpos hnl
      simpa using this
    have hge : 0 ≤ pyFind text '\n' 0 := by
      by_contra hneg
      push_neg at hneg
      rw [pyFind_neg_iff] at hneg
      rw [List.drop_zero] at hneg
      exact hneg hmem
    have hb := pyFind_bounds text '\n' 0 hge
    rw [if_neg (by rw [not_or, not_lt, not_lt]; exact ⟨hge, by omega⟩)]
    exact clipLoop_last_nl text max_chars hlen hnl _ _ hge hb.2 rfl

theorem clip_text_fits_appends_snip_witness :
    ("hi\n".data ≠ [] ∧ (("hi\n".data.length : Int) ≤ 100) ∧
        ('\n' ∉ "hi\n".data ∨ "hi\n".data.getLast? = some '\n')) ∧
      clip_text "hi\n".data 100 = some ("hi\n".data ++ snip_str ++ ['\n']) :=
  ⟨⟨by decide, by decide, by right; decide⟩,
    clip_text_fits_appends_snip "hi\n".data 100 (by decide) (by decide)
      (by right; decide)⟩

/-- C1 (counterexample): `"ab"` has length 2 ≤ 10 and no newline, yet
`clip_text` does not return the bare text with a trailing newline — the snip
marker is appended. -/
theorem clip_text_fits_snip_cex :
    clip_text "ab".data 10 = some ("ab ...(snip)... \n".data) ∧
      clip_text "ab".data 10 ≠ some ("ab\n".data) := by
  constructor
  · decide
  · decide

/-! ### highlight_and_extract_code (clicra.py lines 122–153)

`text.splitlines()` splits at every Python line boundary: `\n`, `\r`, the
pair `\r\n` (one boundary), `\v`, `\f`, `\x1c`, `\x1d`, `\x1e`, `\x85`,
U+2028 and U+2029; the boundary characters are not part of the lines and
a trailing boundary produces no extra line.  `"\n".join` is `joinNl`.  The
two regexes `pat_code_block_start` and `pat_code_block_end` are both
`^```", so the swap performed for `pickup_the_last` is the identity and a
single `isFence` test models both.  `colored(line, "green", attrs=["bold"])`
from termcolor wraps the line in fixed ANSI escape sequences. -/

def isLineBreak (c : Char) : Bool :=
  c == '\n' || c == '\r' || c == '\x0b' || c == '\x0c' ||
  c == '\x1c' || c == '\x1d' || c == '\x1e' || c == '\x85' ||
  c == '\u2028' || c == '\u2029'

def splitlines : List Char → List (List Char)
  | [] => []
  | c :: rest =>
    if isLineBreak c then
      match rest with
      | [] => [[]]
      | d :: rest2 =>
        if c = '\r' ∧ d = '\n' then [] :: splitlines rest2
        else [] :: splitlines (d :: rest2)
    else
      match splitlines rest with
      | [] => [[c]]
      | l :: ls => (c :: l) :: ls

def joinNl : List (List Char) → List Char
  | [] => []
  | [l] => l
  | l :: m :: ls => l ++ '\n' :: joinNl (m :: ls)

def fence : List Char := "```".data

/-- A line matching the regex `^```". -/
def isFence (line : List Char) : Bool := line.take 3 = fence

/-- ANSI rendering of `colored(line, "green", attrs=["bold"])`. -/
def coloredGreenBold (line : List Char) : List Char :=
  (Char.ofNat 27 :: "[1m".data) ++ (Char.ofNat 27 :: "[32m".data) ++ line
    ++ (Char.ofNat 27 :: "[0m".data)

/-- The scanning loop of `highlight_and_extract_code`: the arguments are the
remaining lines, `in_code_block`, `highlighted_lines` and `code_block`. -/
def scanLines : List (List Char) → Bool → List (List Char) → List (List Char) →
    List (List Char) × List (List Char)
  | [], _, highlighted_lines, code_block => (highlighted_lines, code_block)
  | line :: rest, true, highlighted_lines, code_block =>
    if isFence line then
      scanLines rest false (highlighted_lines ++ [line]) code_block
    else
      scanLines rest true (highlighted_lines ++ [coloredGreenBold line])
        (code_block ++ [line])
  | line :: rest, false, highlighted_lines, code_block =>
    scanLines rest (code_block.isEmpty && isFence line)
      (highlighted_lines ++ [line]) code_block

def highlight_and_extract_code (text : List Char)
    (pickup_the_last : Bool := false) : List Char × List Char :=
  let lines := splitlines text
  let lines1 := if pickup_the_last then lines.reverse else lines
  let r := scanLines lines1 false [] []
  let hl := if pickup_the_last then r.1.reverse else r.1
  let cb := if pickup_the_last then r.2.reverse else r.2
  (joinNl hl, joinNl cb)

/-! ### Properties of splitting and joining lines -/

theorem splitlines_cons_cons (c d : Char) (rest2 : List Char) :
    splitlines (c :: d :: rest2) =
      if isLineBreak c then
        if c = '\r' ∧ d = '\n' then [] :: splitlines rest2
        else [] :: splitlines (d :: rest2)
      else
        match splitlines (d :: rest2) with
        | [] => [[c]]
        | l :: ls => (c :: l) :: ls := rfl

theorem splitlines_one (c : Char) :
    splitlines [c] = if isLineBreak c then [[]] else [[c]] := by
  by_cases h : isLineBreak c
  · simp only [splitlines, h, if_true]
  · simp only [splitlines, h, if_false]

theorem splitlines_crlf (rest2 : List Char) :
    splitlines ('\r' :: '\n' :: rest2) = [] :: splitlines rest2 := rfl

theorem splitlines_break_cons {c d : Char} (rest2 : List Char)
    (hc : isLineBreak c = true) (hp : ¬(c = '\r' ∧ d = '\n')) :
    splitlines (c :: d :: rest2) = [] :: splitlines (d :: rest2) := by
  rw [splitlines_cons_cons, if_pos hc, if_neg hp]

theorem splitlines_nobreak_none {c : Char} {rest : List Char}
    (hc : isLineBreak c = false) (hx : splitlines rest = []) :
    splitlines (c :: rest) = [[c]] := by
  cases rest with
  | nil => rw [splitlines_one, if_neg (by simp [hc])]
  | cons d rest2 =>
    rw [splitlines_cons_cons, if_neg (by simp [hc]), hx]

theorem splitlines_nobreak_some {c : Char} {rest l0 : List Char}
    {ls : List (List Char)}
    (hc : isLineBreak c = false) (hx : splitlines rest = l0 :: ls) :
    splitlines (c :: rest) = (c :: l0) :: ls := by
  cases rest with
  | nil => rw [splitlines.eq_1] at hx; cases hx
  | cons d rest2 =>
    rw [splitlines_cons_cons, if_neg (by simp [hc]), hx]

theorem splitlines_ne_nil : ∀ {t : List Char}, t ≠ [] → splitlines t ≠ [] := by
  intro t h
  cases t with
  | nil => exact absurd rfl h
  | cons c rest =>
    by_cases hc : isLineBreak c
    · cases rest with
      | nil => rw [splitlines_one, if_pos hc]; simp
      | cons d rest2 =>
        rw [splitlines_cons_cons, if_pos hc]
        split <;> simp
    · rw [Bool.not_eq_true] at hc
      cases hx : splitlines rest with
      | nil => rw [splitlines_nobreak_none hc hx]; simp
      | cons l0 ls => rw [splitlines_nobreak_some hc hx]; simp

theorem splitlines_eq_nil {t : List Char} (h : splitlines t = []) : t = [] := by
  by_contra hne
  exact splitlines_ne_nil hne h

/-- Every line produced by `splitlines` is free of line-boundary characters. -/
theorem splitlines_no_break : ∀ (t : List Char), ∀ l ∈ splitlines t,
    ∀ c ∈ l, isLineBreak c = false := by
  intro t
  induction t using splitlines.induct with
  | case1 => intro l hl; simp [splitlines] at hl
  | case2 c hbrk =>
    intro l hl
    rw [splitlines_one, if_pos hbrk] at hl
    simp only [List.mem_singleton] at hl
    subst hl
    intro c0 hc0
    cases hc0
  | case3 c hbrk d rest2 hp ih =>
    intro l hl
    obtain ⟨hc, hd⟩ := hp
    subst hc
    subst hd
    rw [splitlines_crlf] at hl
    rcases List.mem_cons.mp hl with he | he
    · subst he; intro c0 hc0; cases hc0
    · exact ih l he
  | case4 c hbrk d rest2 hp ih =>
    intro l hl
    rw [splitlines_break_cons rest2 hbrk hp] at hl
    rcases List.mem_cons.mp hl with he | he
    · subst he; intro c0 hc0; cases hc0
    · exact ih l he
  | case5 c rest2 h hx ih =>
    intro l hl
    rw [Bool.not_eq_true] at h
    rw [splitlines_nobreak_none h hx] at hl
    simp only [List.mem_singleton] at hl
    subst hl
    intro c0 hc0
    rcases List.mem_singleton.mp hc0 with he
    subst he
    exact h
  | case6 c rest2 h l0 ls hx ih =>
    intro l hl
    rw [Bool.not_eq_true] at h
    rw [splitlines_nobreak_some h hx] at hl
    intro c0 hc0
    rcases List.mem_cons.mp hl with he | he
    · subst he
      rcases List.mem_cons.mp hc0 with he2 | he2
      · subst he2; exact h
      · exact ih l0 (by rw [hx]; exact List.mem_cons_self _ _) c0 he2
    · exact ih l (by rw [hx]; exact List.mem_cons_of_mem _ he) c0 hc0

/-- The text does not end with a line-boundary character. -/
def noTrailingBreak (t : List Char) : Bool :=
  match t.getLast? with
  | some c => !isLineBreak c
  | none => true

theorem noTrailingBreak_getLast {t : List Char} {c : Char}
    (h : noTrailingBreak t = true) (he : t.getLast? = some c) :
    isLineBreak c = false := by
  unfold noTrailingBreak at h
  rw [he] at h
  simpa using h

theorem noTrailingBreak_cons {c : Char} {rest : List Char} (hne : rest ≠ []) :
    noTrailingBreak (c :: rest) = noTrailingBreak rest := by
  have he : (c :: rest).getLast? = rest.getLast? := by
    cases rest with
    | nil => exact absurd rfl hne
    | cons d r => rw [List.getLast?_cons_cons]
  unfold noTrailingBreak
  rw [he]

theorem noTrailingBreak_one {c : Char} :
    noTrailingBreak [c] = !isLineBreak c := rfl

/-- When the text does not end with a line boundary, its last line is
nonempty. -/
theorem splitlines_last_ne_nil : ∀ (t : List Char),
    noTrailingBreak t = true → (splitlines t).getLast? ≠ some [] := by
  intro t
  induction t using splitlines.induct with
  | case1 => intro _; simp [splitlines]
  | case2 c hbrk =>
    intro hnt
    rw [noTrailingBreak_one, hbrk] at hnt
    cases hnt
  | case3 c hbrk d rest2 hp ih =>
    intro hnt
    obtain ⟨hc, hd⟩ := hp
    subst hc
    subst hd
    cases rest2 with
    | nil => exact absurd hnt (by decide)
    | cons e r3 =>
      rw [splitlines_crlf]
      have hnt2 : noTrailingBreak (e :: r3) = true := by
        rw [noTrailingBreak_cons (by simp), noTrailingBreak_cons (by simp)] at hnt
        exact hnt
      have hx2 := ih hnt2
      have hne := splitlines_ne_nil (t := e :: r3) (by simp)
      cases hsp : splitlines (e :: r3) with
      | nil => exact absurd hsp hne
      | cons l0 ls =>
        rw [hsp] at hx2
        rw [List.getLast?_cons_cons]
        exact hx2
  | case4 c hbrk d rest2 hp ih =>
    intro hnt
    rw [splitlines_break_cons rest2 hbrk hp]
    have hnt2 : noTrailingBreak (d :: rest2) = true := by
      rw [noTrailingBreak_cons (by simp)] at hnt
      exact hnt
    have hx2 := ih hnt2
    have hne := splitlines_ne_nil (t := d :: rest2) (by simp)
    cases hsp : splitlines (d :: rest2) with
    | nil => exact absurd hsp hne
    | cons l0 ls =>
      rw [hsp] at hx2
      rw [List.getLast?_cons_cons]
      exact hx2
  | case5 c rest2 h hx ih =>
    intro hnt
    rw [Bool.not_eq_true] at h
    rw [splitlines_nobreak_none h hx]
    simp
  | case6 c rest2 h l0 ls hx ih =>
    intro hnt
    rw [Bool.not_eq_true] at h
    have hr : rest2 ≠ [] := by
      intro he
      rw [he] at hx
      cases hx
    have hnt2 : noTrailingBreak rest2 = true := by
      rw [noTrailingBreak_cons hr] at hnt
      exact hnt
    have hlast := ih hnt2
    rw [hx] at hlast
    rw [splitlines_nobreak_some h hx]
    cases ls with
    | nil => simp
    | cons l1 ls2 =>
      rw [List.getLast?_cons_cons]
      rw [List.getLast?_cons_cons] at hlast
      exact hlast

theorem joinNl_cons_head (c : Char) (l : List Char) (ls : List (List Char)) :
    joinNl ((c :: l) :: ls) = c :: joinNl (l :: ls) := by
  cases ls <;> simp [joinNl]

/-- Splitting and rejoining reproduces the text exactly when its only
line-boundary characters are newlines and it does not end with one. -/
theorem joinNl_splitlines : ∀ (t : List Char),
    (∀ c ∈ t, isLineBreak c = true → c = '\n') →
    t.getLast? ≠ some '\n' → joinNl (splitlines t) = t := by
  intro t
  induction t using splitlines.induct with
  | case1 => intro _ _; rfl
  | case2 c hbrk =>
    intro honly hlast
    have hc := honly c (List.mem_cons_self _ _) hbrk
    subst hc
    exact absurd rfl hlast
  | case3 c hbrk d rest2 hp ih =>
    intro honly _
    obtain ⟨hc, _⟩ := hp
    subst hc
    have hx := honly '\r' (List.mem_cons_self _ _) (by decide)
    cases hx
  | case4 c hbrk d rest2 hp ih =>
    intro honly hlast
    have hc := honly c (List.mem_cons_self _ _) hbrk
    subst hc
    rw [splitlines_break_cons rest2 hbrk hp]
    have hne := splitlines_ne_nil (t := d :: rest2) (by simp)
    cases hsp : splitlines (d :: rest2) with
    | nil => exact absurd hsp hne
    | cons l0 ls =>
      have ihx := ih (fun x hx2 hbx => honly x (List.mem_cons_of_mem _ hx2) hbx)
        (by rwa [List.getLast?_cons_cons] at hlast)
      rw [hsp] at ihx
      show [] ++ '\n' :: joinNl (l0 :: ls) = '\n' :: d :: rest2
      rw [List.nil_append, ihx]
  | case5 c rest2 h hx ih =>
    intro honly hlast
    rw [Bool.not_eq_true] at h
    have hr : rest2 = [] := splitlines_eq_nil hx
    subst hr
    rw [splitlines_nobreak_none h hx]
    rfl
  | case6 c rest2 h l0 ls hx ih =>
    intro honly hlast
    rw [Bool.not_eq_true] at h
    have hr : rest2 ≠ [] := by
      intro he
      rw [he] at hx
      cases hx
    have hlast2 : rest2.getLast? ≠ some '\n' := by
      cases rest2 with
      | nil => exact absurd rfl hr
      | cons d r3 => rwa [List.getLast?_cons_cons] at hlast
    have ihx := ih (fun x hx2 hbx => honly x (List.mem_cons_of_mem _ hx2) hbx)
      hlast2
    rw [hx] at ihx
    rw [splitlines_nobreak_some h hx, joinNl_cons_head, ihx]

theorem splitlines_of_no_break : ∀ (a : List Char),
    (∀ c ∈ a, isLineBreak c = false) → a ≠ [] → splitlines a = [a] := by
  intro a
  induction a with
  | nil => intro _ h; exact absurd rfl h
  | cons c rest ih =>
    intro hnb _
    have hc : isLineBreak c = false := hnb c (List.mem_cons_self _ _)
    cases rest with
    | nil => exact splitlines_nobreak_none hc rfl
    | cons d r2 =>
      have hx := ih (fun x hx => hnb x (List.mem_cons_of_mem _ hx)) (by simp)
      exact splitlines_nobreak_some hc hx

theorem splitlines_append_nl : ∀ (a : List Char) (r : List Char),
    (∀ c ∈ a, isLineBreak c = false) →
    splitlines (a ++ '\n' :: r) = a :: splitlines r := by
  intro a
  induction a with
  | nil =>
    intro r _
    rw [List.nil_append]
    cases r with
    | nil =>
      rw [splitlines_one, if_pos (by decide)]
      rfl
    | cons d r2 =>
      rw [splitlines_cons_cons, if_pos (by decide),
        if_neg (fun hp => absurd hp.1 (by decide))]
  | cons c a2 ih =>
    intro r hnb
    have hc : isLineBreak c = false := hnb c (List.mem_cons_self _ _)
    have hx := ih r (fun x hx => hnb x (List.mem_cons_of_mem _ hx))
    rw [List.cons_append]
    exact splitlines_nobreak_some hc hx

theorem splitlines_joinNl : ∀ (ls : List (List Char)),
    (∀ l ∈ ls, ∀ c ∈ l, isLineBreak c = false) → ls.getLast? ≠ some [] →
    splitlines (joinNl ls) = ls := by
  intro ls
  induction ls with
  | nil => intro _ _; rfl
  | cons a tl ih =>
    intro hnb hlast
    cases tl with
    | nil =>
      have ha : a ≠ [] := by
        intro he
        apply hlast
        rw [he]
        rfl
      exact splitlines_of_no_break a (hnb a (List.mem_cons_self _ _)) ha
    | cons b tl2 =>
      have he : joinNl (a :: b :: tl2) = a ++ '\n' :: joinNl (b :: tl2) := rfl
      rw [he, splitlines_append_nl a _ (hnb a (List.mem_cons_self _ _))]
      rw [ih (fun l hl => hnb l (List.mem_cons_of_mem _ hl))
        (by rwa [List.getLast?_cons_cons] at hlast)]

theorem coloredGreenBold_ne_nil (l : List Char) : coloredGreenBold l ≠ [] := by
  simp [coloredGreenBold]

/-- The ANSI wrapper adds no line-boundary characters. -/
theorem coloredGreenBold_no_break {l : List Char}
    (h : ∀ c ∈ l, isLineBreak c = false) :
    ∀ c ∈ coloredGreenBold l, isLineBreak c = false := by
  intro c hmem
  unfold coloredGreenBold at hmem
  rw [List.mem_append, List.mem_append, List.mem_append] at hmem
  rcases hmem with ((h1 | h1) | h1) | h1
  · exact (by decide : ∀ c ∈ (Char.ofNat 27 :: "[1m".data), isLineBreak c = false) c h1
  · exact (by decide : ∀ c ∈ (Char.ofNat 27 :: "[32m".data), isLineBreak c = false) c h1
  · exact h c h1
  · exact (by decide : ∀ c ∈ (Char.ofNat 27 :: "[0m".data), isLineBreak c = false) c h1

/-! ### Properties of the scanning loop -/

theorem scanLines_cons_true (line : List Char) (rest : List (List Char))
    (hl cb : List (List Char)) :
    scanLines (line :: rest) true hl cb =
      if isFence line then scanLines rest false (hl ++ [line]) cb
      else scanLines rest true (hl ++ [coloredGreenBold line])
        (cb ++ [line]) := rfl

theorem scanLines_cons_false (line : List Char) (rest : List (List Char))
    (hl cb : List (List Char)) :
    scanLines (line :: rest) false hl cb =
      scanLines rest (cb.isEmpty && isFence line) (hl ++ [line]) cb := rfl

/-- The `highlighted_lines` accumulator only grows: a prefix can be split off. -/
theorem scanLines_hl_acc : ∀ (ls : List (List Char)) (b : Bool)
    (hl₀ hl cb : List (List Char)),
    scanLines ls b (hl₀ ++ hl) cb =
      (hl₀ ++ (scanLines ls b hl cb).1, (scanLines ls b hl cb).2) := by
  intro ls
  induction ls with
  | nil => intro b hl₀ hl cb; rfl
  | cons line rest ih =>
    intro b hl₀ hl cb
    cases b with
    | false =>
      rw [scanLines_cons_false, scanLines_cons_false, List.append_assoc, ih]
    | true =>
      rw [scanLines_cons_true, scanLines_cons_true]
      by_cases hf : isFence line
      · rw [if_pos hf, if_pos hf, List.append_assoc, ih]
      · rw [if_neg hf, if_neg hf, List.append_assoc, ih]

/-- Outside a block with no captured content yet, fence-free lines pass through. -/
theorem scanLines_nofence_step : ∀ (A : List (List Char)),
    (∀ l ∈ A, isFence l = false) →
    ∀ (rest hl : List (List Char)),
    scanLines (A ++ rest) false hl [] = scanLines rest false (hl ++ A) [] := by
  intro A
  induction A with
  | nil => intro _ rest hl; rw [List.nil_append, List.append_nil]
  | cons a A' ih =>
    intro h rest hl
    rw [List.cons_append, scanLines_cons_false]
    have ha : isFence a = false := h a (List.mem_cons_self _ _)
    rw [ha, Bool.and_false]
    rw [ih (fun l hm => h l (List.mem_cons_of_mem _ hm)) rest (hl ++ [a])]
    rw [List.append_assoc, List.singleton_append]

/-- Once the captured block is nonempty, every remaining line passes through
verbatim and the captured content never changes. -/
theorem scanLines_pass_step : ∀ (C : List (List Char))
    (rest hl cb : List (List Char)), cb ≠ [] →
    scanLines (C ++ rest) false hl cb = scanLines rest false (hl ++ C) cb := by
  intro C
  induction C with
  | nil => intro rest hl cb _; rw [List.nil_append, List.append_nil]
  | cons a C' ih =>
    intro rest hl cb hcb
    rw [List.cons_append, scanLines_cons_false]
    have he : cb.isEmpty = false := by
      cases cb
      · exact absurd rfl hcb
      · rfl
    rw [he, Bool.false_and]
    rw [ih rest (hl ++ [a]) cb hcb, List.append_assoc, List.singleton_append]

/-- Inside a block, fence-free lines are captured and colored until the next
fence line closes the block. -/
theorem scanLines_capture : ∀ (B : List (List Char)),
    (∀ l ∈ B, isFence l = false) → ∀ (f : List Char), isFence f = true →
    ∀ (rest hl cb : List (List Char)),
    scanLines (B ++ f :: rest) true hl cb =
      scanLines rest false (hl ++ B.map coloredGreenBold ++ [f]) (cb ++ B) := by
  intro B
  induction B with
  | nil =>
    intro _ f hf rest hl cb
    rw [List.nil_append, scanLines_cons_true, if_pos hf]
    rw [List.map_nil, List.append_nil, List.append_nil]
  | cons b B' ih =>
    intro hB f hf rest hl cb
    rw [List.cons_append, scanLines_cons_true]
    have hb : isFence b = false := hB b (List.mem_cons_self _ _)
    rw [if_neg (by simp [hb])]
    rw [ih (fun l hm => hB l (List.mem_cons_of_mem _ hm)) f hf rest _ _]
    rw [List.map_cons]
    simp [List.append_assoc]

def AnnotRel (x y : List Char) : Prop := y = x ∨ y = coloredGreenBold x

/-- Every line of `highlighted_lines` is the corresponding input line, either
verbatim or colored. -/
theorem scanLines_annot : ∀ (ls : List (List Char)) (b : Bool)
    (hl cb : List (List Char)),
    ∃ tl, (scanLines ls b hl cb).1 = hl ++ tl ∧
      List.Forall₂ AnnotRel ls tl := by
  intro ls
  induction ls with
  | nil =>
    intro b hl cb
    exact ⟨[], by rw [List.append_nil]; rfl, List.Forall₂.nil⟩
  | cons line rest ih =>
    intro b hl cb
    cases b with
    | false =>
      obtain ⟨tl, h1, h2⟩ := ih (cb.isEmpty && isFence line) (hl ++ [line]) cb
      refine ⟨line :: tl, ?_, List.Forall₂.cons (Or.inl rfl) h2⟩
      rw [scanLines_cons_false, h1, List.append_assoc, List.singleton_append]
    | true =>
      by_cases hf : isFence line
      · obtain ⟨tl, h1, h2⟩ := ih false (hl ++ [line]) cb
        refine ⟨line :: tl, ?_, List.Forall₂.cons (Or.inl rfl) h2⟩
        rw [scanLines_cons_true, if_pos hf, h1, List.append_assoc,
          List.singleton_append]
      · obtain ⟨tl, h1, h2⟩ := ih true (hl ++ [coloredGreenBold line])
          (cb ++ [line])
        refine ⟨coloredGreenBold line :: tl, ?_,
          List.Forall₂.cons (Or.inr rfl) h2⟩
        rw [scanLines_cons_true, if_neg hf, h1, List.append_assoc,
          List.singleton_append]

theorem AnnotRel_no_break {x y : List Char} (h : AnnotRel x y)
    (hx : ∀ c ∈ x, isLineBreak c = false) :
    ∀ c ∈ y, isLineBreak c = false := by
  rcases h with h | h
  · rw [h]; exact hx
  · rw [h]; exact coloredGreenBold_no_break hx

theorem AnnotRel_ne_nil {x y : List Char} (h : AnnotRel x y) (hx : x ≠ []) :
    y ≠ [] := by
  rcases h with h | h
  · rw [h]; exact hx
  · rw [h]; exact coloredGreenBold_ne_nil x

theorem forall2_annot_no_break : ∀ {ls tl : List (List Char)},
    List.Forall₂ AnnotRel ls tl →
    (∀ l ∈ ls, ∀ c ∈ l, isLineBreak c = false) →
    ∀ l ∈ tl, ∀ c ∈ l, isLineBreak c = false := by
  intro ls tl h
  induction h with
  | nil => intro _ l hl; cases hl
  | cons hr htl ih =>
    intro hnl l hl
    rcases List.mem_cons.mp hl with he | he
    · subst he
      exact AnnotRel_no_break hr (hnl _ (List.mem_cons_self _ _))
    · exact ih (fun x hx => hnl x (List.mem_cons_of_mem _ hx)) l he

theorem forall2_annot_last : ∀ {ls tl : List (List Char)},
    List.Forall₂ AnnotRel ls tl → ls.getLast? ≠ some [] →
    tl.getLast? ≠ some [] := by
  intro ls tl h
  induction h with
  | nil => intro h2; exact h2
  | @cons a b l1 l2 hr htl ih =>
    intro h2
    cases htl with
    | nil =>
      have ha : a ≠ [] := by
        intro he
        apply h2
        rw [he]
        rfl
      have hb := AnnotRel_ne_nil hr ha
      intro heq
      apply hb
      have hsome : some b = some [] := by rw [← heq]; rfl
      exact Option.some.inj hsome
    | @cons x y l1' l2' hr2 htl2 =>
      rw [List.getLast?_cons_cons]
      rw [List.getLast?_cons_cons] at h2
      exact (by
        have := ih h2
        exact this)

/-- Scanning a prefix with no fence line, an opening fence, a fence-free
block body and a closing fence leaves the scanner just after the closing
fence with the body captured. -/
theorem scan_one_block (A B rest : List (List Char)) (f0 f1 : List Char)
    (hA : ∀ l ∈ A, isFence l = false) (hB : ∀ l ∈ B, isFence l = false)
    (hf0 : isFence f0 = true) (hf1 : isFence f1 = true) :
    scanLines (A ++ f0 :: (B ++ f1 :: rest)) false [] [] =
      scanLines rest false (A ++ f0 :: (B.map coloredGreenBold ++ [f1])) B := by
  rw [scanLines_nofence_step A hA _ [], List.nil_append, scanLines_cons_false,
    List.isEmpty_nil, Bool.true_and, hf0]
  rw [scanLines_capture B hB f1 hf1 rest _ _, List.nil_append]
  have hx : (A ++ [f0]) ++ B.map coloredGreenBold ++ [f1]
      = A ++ f0 :: (B.map coloredGreenBold ++ [f1]) := by
    simp [List.append_assoc]
  rw [hx]

/-- Scanning a fence-free tail to the end: everything passes through (when
no content has been captured a fence-free tail cannot open a block; when
content has been captured nothing is ever captured again). -/
theorem scanLines_end (C : List (List Char)) (hl cb : List (List Char))
    (h : cb = [] → ∀ l ∈ C, isFence l = false) :
    scanLines C false hl cb = (hl ++ C, cb) := by
  cases hcb : cb with
  | nil =>
    subst hcb
    have h2 := scanLines_nofence_step C (h rfl) [] hl
    rw [List.append_nil] at h2
    rw [h2]
    rfl
  | cons x cb' =>
    have h2 := scanLines_pass_step C [] hl (x :: cb') (by simp)
    rw [List.append_nil] at h2
    rw [h2]
    rfl

/-- C2 (amended): if the text contains no fence-marker line at all, its only
line-boundary characters are newlines, and it does not end with a newline,
`highlight_and_extract_code` returns the text reproduced unchanged with no
annotation applied, together with an empty block content. -/
theorem extract_no_fence_id (text : List Char) (pickup : Bool)
    (hnf : ∀ l ∈ splitlines text, isFence l = false)
    (honly : ∀ c ∈ text, isLineBreak c = true → c = '\n')
    (hlast : text.getLast? ≠ some '\n') :
    highlight_and_extract_code text pickup = (text, []) := by
  cases pickup with
  | false =>
    show (joinNl (scanLines (splitlines text) false [] []).1,
      joinNl (scanLines (splitlines text) false [] []).2) = (text, [])
    rw [scanLines_end (splitlines text) [] [] (fun _ => hnf),
      List.nil_append]
    rw [joinNl_splitlines text honly hlast]
    rfl
  | true =>
    show (joinNl (scanLines (splitlines text).reverse false [] []).1.reverse,
      joinNl (scanLines (splitlines text).reverse false [] []).2.reverse)
      = (text, [])
    rw [scanLines_end (splitlines text).reverse [] []
      (fun _ => fun l hl => hnf l (List.mem_reverse.mp hl)), List.nil_append]
    show (joinNl (splitlines text).reverse.reverse, joinNl ([] : List (List Char)).reverse) = (text, [])
    rw [List.reverse_reverse, joinNl_splitlines text honly hlast]
    rfl

theorem extract_no_fence_id_witness :
    ((∀ l ∈ splitlines "no code here".data, isFence l = false) ∧
        (∀ c ∈ "no code here".data, isLineBreak c = true → c = '\n') ∧
        "no code here".data.getLast? ≠ some '\n') ∧
      highlight_and_extract_code "no code here".data false
        = ("no code here".data, []) :=
  ⟨⟨by decide, by decide, by decide⟩,
    extract_no_fence_id "no code here".data false (by decide) (by decide)
      (by decide)⟩

/-- C2 (counterexample): the text `"```\nx"` contains no pair of fence lines
(only a single unmatched fence), yet the returned block content is nonempty
and the text is annotated; the fence-free text `"a\n"` is not reproduced
unchanged (the trailing newline is dropped by the split/join round trip);
and the fence-free text `"a\rb"` is not reproduced unchanged either (the
carriage return is a line boundary and the join uses newlines). -/
theorem extract_no_block_cex :
    (highlight_and_extract_code ("```\nx".data) false).2 ≠ [] ∧
      (highlight_and_extract_code ("a\n".data) false).1 ≠ "a\n".data ∧
      (highlight_and_extract_code ("a\rb".data) false).1 ≠ "a\rb".data ∧
      (highlight_and_extract_code ("a\rb".data) false).1 = "a\nb".data := by
  refine ⟨by decide, by decide, by decide, by decide⟩

/-- C3 (amended): the extractor keeps only the first fenced block that
encloses at least one line: after that block is closed, every subsequent
fence-marker line is passed through unannotated and no further block
content is captured. -/
theorem extract_first_block_only (text : List Char)
    (A B post : List (List Char)) (f0 f1 : List Char)
    (hsplit : splitlines text = A ++ f0 :: (B ++ f1 :: post))
    (hA : ∀ l ∈ A, isFence l = false) (hB : ∀ l ∈ B, isFence l = false)
    (hf0 : isFence f0 = true) (hf1 : isFence f1 = true) (hBne : B ≠ []) :
    highlight_and_extract_code text false =
      (joinNl (A ++ f0 :: (B.map coloredGreenBold ++ f1 :: post)),
        joinNl B) := by
  show (joinNl (scanLines (splitlines text) false [] []).1,
    joinNl (scanLines (splitlines text) false [] []).2) = _
  rw [hsplit, scan_one_block A B post f0 f1 hA hB hf0 hf1,
    scanLines_end post _ B (fun he => absurd he hBne)]
  have hx : (A ++ f0 :: (B.map coloredGreenBold ++ [f1])) ++ post
      = A ++ f0 :: (B.map coloredGreenBold ++ f1 :: post) := by
    simp [List.append_assoc]
  rw [hx]

theorem extract_first_block_only_witness :
    (splitlines "a\n```\nx\n```\n```\ny".data
        = ["a".data] ++ "```".data :: (["x".data] ++ "```".data ::
          ["```".data, "y".data]) ∧
      (∀ l ∈ ["a".data], isFence l = false) ∧
      (∀ l ∈ ["x".data], isFence l = false) ∧
      isFence "```".data = true ∧ (["x".data] : List (List Char)) ≠ []) ∧
      highlight_and_extract_code "a\n```\nx\n```\n```\ny".data false
        = (joinNl (["a".data] ++ "```".data ::
            (["x".data].map coloredGreenBold ++ "```".data ::
              ["```".data, "y".data])), joinNl ["x".data]) :=
  ⟨⟨by decide, by decide, by decide, by decide, by decide⟩,
    extract_first_block_only "a\n```\nx\n```\n```\ny".data
      ["a".data] ["x".data] ["```".data, "y".data] "```".data "```".data
      (by decide) (by decide) (by decide) (by decide) (by decide) (by decide)⟩

/-- C3 (counterexample): in `"```\n```\n```\nw\n```"` the first fenced block
encountered by the scan is the empty pair; after it is closed the scan still
interprets the later fence lines and captures `"w"`, so content outside the
first block is captured. -/
theorem extract_first_block_only_cex :
    (highlight_and_extract_code ("```\n```\n```\nw\n```".data) false).2
        = "w".data ∧ "w".data ≠ ([] : List Char) := by
  constructor
  · decide
  · decide

/-- C4 (amended): for every input text that does not end with a
line-boundary character and either scan direction, the annotated output of
`highlight_and_extract_code` has the same number of lines as the input and
each output line is the corresponding input line, verbatim or colored
(lossless apart from markup). -/
theorem extract_lines_preserved (text : List Char) (pickup : Bool)
    (hlast : noTrailingBreak text = true) :
    List.Forall₂ AnnotRel (splitlines text)
        (splitlines (highlight_and_extract_code text pickup).1) ∧
      (splitlines (highlight_and_extract_code text pickup).1).length
        = (splitlines text).length := by
  have hmain : List.Forall₂ AnnotRel (splitlines text)
      (splitlines (highlight_and_extract_code text pickup).1) := by
    cases pickup with
    | false =>
      show List.Forall₂ AnnotRel (splitlines text)
        (splitlines (joinNl (scanLines (splitlines text) false [] []).1))
      obtain ⟨tl, h1, h2⟩ := scanLines_annot (splitlines text) false [] []
      rw [List.nil_append] at h1
      rw [h1]
      rw [splitlines_joinNl tl
        (forall2_annot_no_break h2 (splitlines_no_break text))
        (forall2_annot_last h2 (splitlines_last_ne_nil text hlast))]
      exact h2
    | true =>
      show List.Forall₂ AnnotRel (splitlines text)
        (splitlines (joinNl
          (scanLines (splitlines text).reverse false [] []).1.reverse))
      obtain ⟨tl, h1, h2⟩ :=
        scanLines_annot (splitlines text).reverse false [] []
      rw [List.nil_append] at h1
      rw [h1]
      have h3 : List.Forall₂ AnnotRel (splitlines text) tl.reverse := by
        have h4 := List.forall₂_reverse_iff.mpr h2
        rwa [List.reverse_reverse] at h4
      rw [splitlines_joinNl tl.reverse
        (forall2_annot_no_break h3 (splitlines_no_break text))
        (forall2_annot_last h3 (splitlines_last_ne_nil text hlast))]
      exact h3
  exact ⟨hmain, (List.Forall₂.length_eq hmain).symm⟩

theorem extract_lines_preserved_witness :
    (noTrailingBreak "```\nls -la\n```".data = true) ∧
      (List.Forall₂ AnnotRel (splitlines "```\nls -la\n```".data)
          (splitlines
            (highlight_and_extract_code "```\nls -la\n```".data false).1) ∧
        (splitlines
            (highlight_and_extract_code "```\nls -la\n```".data false).1).length
          = (splitlines "```\nls -la\n```".data).length) :=
  ⟨by decide, extract_lines_preserved "```\nls -la\n```".data false (by decide)⟩

/-- C4 (counterexample): for the input `"\n"` the annotated output is the
empty string, which has 0 lines while the input has 1 line; and for
`"x\n\r"`, which does not end with a newline but ends with a carriage
return, the annotated output has 1 line while the input has 2 — the line
count is not preserved for text ending in a line boundary. -/
theorem extract_lines_preserved_cex :
    (splitlines (highlight_and_extract_code "\n".data false).1).length
        ≠ (splitlines "\n".data).length ∧
      (splitlines (highlight_and_extract_code "x\n\r".data false).1).length
        ≠ (splitlines "x\n\r".data).length := by
  refine ⟨by decide, by decide⟩

/-- C5: on a text with exactly one fenced block (two fence lines with
fence-free prefix, body and suffix), extraction with `pickup_the_last = true`
returns the same block content as with `pickup_the_last = false`. -/
theorem extract_last_eq_first_single_block (text : List Char)
    (A B C : List (List Char)) (f0 f1 : List Char)
    (hsplit : splitlines text = A ++ f0 :: (B ++ f1 :: C))
    (hA : ∀ l ∈ A, isFence l = false) (hB : ∀ l ∈ B, isFence l = false)
    (hC : ∀ l ∈ C, isFence l = false)
    (hf0 : isFence f0 = true) (hf1 : isFence f1 = true) :
    (highlight_and_extract_code text true).2 =
      (highlight_and_extract_code text false).2 := by
  have hfwd : (scanLines (splitlines text) false [] []).2 = B := by
    rw [hsplit, scan_one_block A B C f0 f1 hA hB hf0 hf1,
      scanLines_end C _ B (fun _ => hC)]
  have hrev : (splitlines text).reverse
      = C.reverse ++ f1 :: (B.reverse ++ f0 :: A.reverse) := by
    rw [hsplit]
    simp
  have hbwd : (scanLines (splitlines text).reverse false [] []).2
      = B.reverse := by
    rw [hrev, scan_one_block C.reverse B.reverse A.reverse f1 f0
      (fun l hl => hC l (List.mem_reverse.mp hl))
      (fun l hl => hB l (List.mem_reverse.mp hl)) hf1 hf0,
      scanLines_end A.reverse _ B.reverse
        (fun _ => fun l hl => hA l (List.mem_reverse.mp hl))]
  show joinNl (scanLines (splitlines text).reverse false [] []).2.reverse
    = joinNl (scanLines (splitlines text) false [] []).2
  rw [hfwd, hbwd, List.reverse_reverse]

theorem extract_last_eq_first_single_block_witness :
    (splitlines "a\n```\nx\n```\nb".data
        = ["a".data] ++ "```".data :: (["x".data] ++ "```".data ::
          ["b".data]) ∧
      isFence "```".data = true) ∧
      (highlight_and_extract_code "a\n```\nx\n```\nb".data true).2 =
        (highlight_and_extract_code "a\n```\nx\n```\nb".data false).2 :=
  ⟨⟨by decide, by decide⟩,
    extract_last_eq_first_single_block "a\n```\nx\n```\nb".data
      ["a".data] ["x".data] ["b".data] "```".data "```".data
      (by decide) (by decide) (by decide) (by decide) (by decide) (by decide)⟩

/-- C10: when the first fence pair encloses zero lines, no block content is
captured from it and scanning continues as from the initial state: the
extracted block content is exactly what the scan loop extracts from the
remaining lines (hence the content of the next fenced block enclosing at
least one line, if any exists). -/
theorem extract_skips_empty_block (text : List Char)
    (A rest : List (List Char)) (f0 f1 : List Char)
    (hsplit : splitlines text = A ++ f0 :: f1 :: rest)
    (hA : ∀ l ∈ A, isFence l = false)
    (hf0 : isFence f0 = true) (hf1 : isFence f1 = true) :
    (highlight_and_extract_code text false).2 =
      joinNl ((scanLines rest false [] []).2) := by
  show joinNl (scanLines (splitlines text) false [] []).2 = _
  rw [hsplit]
  have h1 : A ++ f0 :: f1 :: rest
      = A ++ f0 :: (([] : List (List Char)) ++ f1 :: rest) := by
    rw [List.nil_append]
  rw [h1, scan_one_block A [] rest f0 f1 hA
    (fun l hl => absurd hl (List.not_mem_nil l)) hf0 hf1]
  simp only [List.map_nil, List.nil_append]
  have h2 := scanLines_hl_acc rest false (A ++ f0 :: [f1]) [] []
  rw [List.append_nil] at h2
  rw [h2]

theorem extract_skips_empty_block_witness :
    (splitlines "```\n```\n```\nx\n```".data
        = [] ++ "```".data :: "```".data ::
          ["```".data, "x".data, "```".data] ∧
      isFence "```".data = true) ∧
      (highlight_and_extract_code "```\n```\n```\nx\n```".data false).2 =
        joinNl ((scanLines ["```".data, "x".data, "```".data]
          false [] []).2) :=
  ⟨⟨by decide, by decide⟩,
    extract_skips_empty_block "```\n```\n```\nx\n```".data
      [] ["```".data, "x".data, "```".data] "```".data "```".data
      (by decide) (fun l hl => absurd hl (List.not_mem_nil l))
      (by decide) (by decide)⟩

/-! ### format_analysis_prompt (clicra.py lines 170–182)

Python's `if task:` is true exactly when the optional string is present and
non-empty (`None` and `""` are both falsy). -/

def format_analysis_prompt (code : List Char)
    (task context stdout stderr : Option (List Char)) : List Char :=
  let p := "Analyze the result of the command.\n".data
  let p := match task with
    | some t => if t ≠ [] then p ++ "\n## TASK\n".data ++ t ++ "\n".data else p
    | none => p
  let p := match context with
    | some c => if c ≠ [] then p ++ "\n## CONTEXT\n".data ++ c ++ "\n".data else p
    | none => p
  let p := p ++ "\n## COMMAND\n```\n".data ++ code ++ "\n```\n".data
  let p := match stdout with
    | some s => if s ≠ [] then p ++ "\n## STDOUT\n".data ++ s ++ "\n".data else p
    | none => p
  let p := match stderr with
    | some s => if s ≠ [] then p ++ "\n## STDERR\n".data ++ s ++ "\n".data else p
    | none => p
  p

/-- Python truthiness of an optional string: present and non-empty. -/
def optTruthy : Option (List Char) → Bool
  | none => false
  | some s => decide (s ≠ [])

/-- C7: the analysis prompt is the fixed instruction sentence followed by the
sections in the fixed order TASK, CONTEXT, COMMAND, STDOUT, STDERR; the
COMMAND section is always present and holds the executed command inside a
fenced block; the TASK, CONTEXT, STDOUT and STDERR sections are present if
and only if the corresponding text is non-empty. -/
theorem format_analysis_prompt_sections (code : List Char)
    (task context stdout stderr : Option (List Char)) :
    format_analysis_prompt code task context stdout stderr =
      "Analyze the result of the command.\n".data
      ++ (if optTruthy task then
            "\n## TASK\n".data ++ task.getD [] ++ "\n".data else [])
      ++ (if optTruthy context then
            "\n## CONTEXT\n".data ++ context.getD [] ++ "\n".data else [])
      ++ ("\n## COMMAND\n```\n".data ++ code ++ "\n```\n".data)
      ++ (if optTruthy stdout then
            "\n## STDOUT\n".data ++ stdout.getD [] ++ "\n".data else [])
      ++ (if optTruthy stderr then
            "\n## STDERR\n".data ++ stderr.getD [] ++ "\n".data else []) := by
  cases task <;> cases context <;> cases stdout <;> cases stderr <;>
    · simp only [format_analysis_prompt, optTruthy, decide_eq_true_eq,
        Option.getD_some, Option.getD_none]
      split_ifs <;>
        first
          | exact (by assumption : False).elim
          | simp only [List.append_assoc, List.nil_append, List.append_nil]

/-! ### main (clicra.py lines 200–295)

The orchestration of `main` after argument parsing is embedded as a function
of the parsed arguments, the model's response text and the executed command's
exit code; the model client, terminal printing, the clipboard and the
subprocess are external collaborators.  `exit("Error: …")` exits with status
1, `exit(exit_code)` exits with the given code, and returning from `main`
exits with status 0. -/

structure Prompting where
  text : List Char
  extract_last_command : Bool

def PROMPTINGS : List (List Char × Prompting) :=
  [("sbs".data,
    ⟨"(Let’s work this out in a step by step way to be sure we have the right answer.\n\n".data,
      true⟩),
   ("tot".data,
    ⟨"magine three different experts are answering this question. All experts will write down 1 step of their thinking, then share it with the group.\nThen all experts will go on to the next step, etc. If any expert realises they're wrong at any point then they leave.\n\n".data,
      true⟩)]

def PROMPTINGS_get : Option (List Char) → Option Prompting
  | none => none
  | some k => (PROMPTINGS.find? (fun p => p.1 == k)).map (fun p => p.2)

structure MainArgs where
  task : List (List Char)
  run : Bool
  script : Bool
  refer : Option (List Char)
  model : List Char
  max_chars : Int
  verbose : Bool
  prompting : Option (List Char)

/-- The Python expression `pt and pt.extract_last_command` passed as
`pickup_the_last` (`None` is falsy). -/
def mainPickup (args : MainArgs) : Bool :=
  match PROMPTINGS_get args.prompting with
  | some pt => pt.extract_last_command
  | none => false

/-- The command text `main` extracts from the model response. -/
def extractedCode (args : MainArgs) (response : List Char) : List Char :=
  (highlight_and_extract_code response (mainPickup args)).2

/-- Exit status of `main` as a function of the parsed arguments, the model
response and the executed command's exit code. -/
def mainExit (args : MainArgs) (response : List Char)
    (cmd_exit_code : Int) : Int :=
  if args.task = [] then 1
  else if extractedCode args response ≠ [] then
    if args.run then cmd_exit_code else 0
  else 0

/-- C8: when a command is executed (run mode with a nonempty extracted
command), the process exit status equals the executed command's exit code,
zero or not; when no command is executed (run mode off, or nothing
extracted), the process exits with the fixed success status 0. -/
theorem main_exit_mirrors_command (args : MainArgs) (response : List Char)
    (ec : Int) (htask : args.task ≠ []) :
    (args.run = true → extractedCode args response ≠ [] →
        mainExit args response ec = ec) ∧
      ((args.run = false ∨ extractedCode args response = []) →
        mainExit args response ec = 0) := by
  constructor
  · intro hrun hcode
    unfold mainExit
    rw [if_neg htask, if_pos hcode, if_pos hrun]
  · intro h
    unfold mainExit
    rw [if_neg htask]
    by_cases hcode : extractedCode args response = []
    · rw [if_neg (by simp [hcode])]
    · rw [if_pos hcode]
      rcases h with h | h
      · rw [if_neg (by simp [h])]
      · exact absurd h hcode

theorem main_exit_mirrors_command_witness :
    ((MainArgs.mk ["ls".data] true false none [] 2000 false none).task ≠ []) ∧
      ((MainArgs.mk ["ls".data] true false none [] 2000 false none).run = true →
          extractedCode (MainArgs.mk ["ls".data] true false none [] 2000 false none)
            "```\nls -la\n```".data ≠ [] →
          mainExit (MainArgs.mk ["ls".data] true false none [] 2000 false none)
            "```\nls -la\n```".data 7 = 7) ∧
      (((MainArgs.mk ["ls".data] true false none [] 2000 false none).run = false ∨
          extractedCode (MainArgs.mk ["ls".data] true false none [] 2000 false none)
            "```\nls -la\n```".data = []) →
          mainExit (MainArgs.mk ["ls".data] true false none [] 2000 false none)
            "```\nls -la\n```".data 7 = 0) :=
  ⟨by decide,
    main_exit_mirrors_command
      (MainArgs.mk ["ls".data] true false none [] 2000 false none)
      "```\nls -la\n```".data 7 (by decide)⟩

end Clicra
